import Mathlib

/-!
Verification of the service-game store (`lutris/database/services.py`) and the
RomM service plugin (`lutris/services/romm.py`) of the lutris launcher, over a
shallow embedding of the Python code.

The embedding keeps the source structure:

* JSON values are modelled by `JsonVal` (numbers restricted to integers, which
  is what the RomM API delivers for the fields this plugin reads); the Python
  standard-library pair `json.dumps` / `json.loads` is modelled from the spec
  by `json_dumps` / `json_loads`, an executable serializer and parser proved to
  round-trip (`json_loads_json_dumps`).
* Database rows are association lists from column name to value; the
  parameterized query builder `sql.filtered_query` (in `lutris/database/sql.py`,
  outside the sources at hand) is modelled from the spec by `buildQuery`
  (query text plus bound parameters) and `runFullQuery` (its semantics).
* The HTTP boundary (`lutris/util/http.py`, outside the sources at hand) is
  modelled from the spec as a function from URL to a `FetchOutcome`: a decoded
  JSON body, an `HTTPError` raised by `Request.get`, or a `ValueError` raised
  when decoding the body.
-/

namespace LutrisSpec

/-- A JSON value as produced by decoding an API response. Numbers are
restricted to integers: every field the plugin touches (`id`) is integral. -/
inductive JsonVal where
  | null
  | bool (b : Bool)
  | num (n : Int)
  | str (s : String)
  | arr (elems : List JsonVal)
  | obj (fields : List (String × JsonVal))
deriving Repr

mutual
/-- Boolean equality on JSON values (Python `==` on decoded values). -/
def jeqVal : JsonVal → JsonVal → Bool
  | .null, .null => true
  | .bool a, .bool b => a == b
  | .num a, .num b => a == b
  | .str a, .str b => a == b
  | .arr xs, .arr ys => jeqList xs ys
  | .obj xs, .obj ys => jeqMembers xs ys
  | _, _ => false

/-- Boolean equality on JSON arrays, element by element. -/
def jeqList : List JsonVal → List JsonVal → Bool
  | [], [] => true
  | x :: xs, y :: ys => jeqVal x y && jeqList xs ys
  | _, _ => false

/-- Boolean equality on JSON objects, field by field. -/
def jeqMembers : List (String × JsonVal) → List (String × JsonVal) → Bool
  | [], [] => true
  | (k, v) :: xs, (l, w) :: ys => k == l && jeqVal v w && jeqMembers xs ys
  | _, _ => false
end

/-- The decimal digit character for `n < 10`. -/
def digitChar (n : Nat) : Char := Char.ofNat (48 + n)

/-- Digit-production loop with explicit fuel, so that it evaluates by plain
reduction; any fuel above the number suffices. -/
def natCharsAux : Nat → Nat → List Char
  | 0, _ => []
  | fuel + 1, n =>
    if n < 10 then [digitChar n]
    else natCharsAux fuel (n / 10) ++ [digitChar (n % 10)]

/-- The decimal digits of a natural number, most significant first. -/
def natChars (n : Nat) : List Char := natCharsAux (n + 1) n

/-- The decimal rendering of an integer, with a leading minus sign when
negative. -/
def intChars (n : Int) : List Char :=
  if n < 0 then '-' :: natChars n.natAbs else natChars n.natAbs

/-- The lowercase hexadecimal digit character for `n < 16`. -/
def hexDigit (n : Nat) : Char :=
  if n < 10 then Char.ofNat (48 + n) else Char.ofNat (87 + n)

/-- Four hexadecimal digits encoding `n % 65536`, most significant first. -/
def hex4 (n : Nat) : List Char :=
  [hexDigit (n / 4096 % 16), hexDigit (n / 256 % 16), hexDigit (n / 16 % 16),
    hexDigit (n % 16)]

/-- Modelled from the spec: how the serializer renders one character inside a
JSON string. Quote and backslash get a backslash escape, control characters a
`\uXXXX` escape, everything else stands for itself. -/
def escapeChar (c : Char) : List Char :=
  if c = '"' then ['\\', '"']
  else if c = '\\' then ['\\', '\\']
  else if c.toNat < 32 then '\\' :: 'u' :: hex4 c.toNat
  else [c]

/-- The body of a serialized JSON string. -/
def escString : List Char → List Char
  | [] => []
  | c :: cs => escapeChar c ++ escString cs

/-- A serialized JSON string, quotes included. -/
def encodeString (s : String) : List Char := '"' :: escString s.data ++ ['"']

mutual
/-- Modelled from the spec: Python `json.dumps` (the standard library is not
part of the sources), with its default separators `", "` and `": "`. -/
def dumpVal : JsonVal → List Char
  | .null => "null".data
  | .bool true => "true".data
  | .bool false => "false".data
  | .num n => intChars n
  | .str s => encodeString s
  | .arr xs => '[' :: dumpElems xs ++ [']']
  | .obj fs => '\x7b' :: dumpMembers fs ++ ['\x7d']

/-- The serialized elements of a JSON array, separated by `", "`. -/
def dumpElems : List JsonVal → List Char
  | [] => []
  | [x] => dumpVal x
  | x :: y :: ys => dumpVal x ++ ',' :: ' ' :: dumpElems (y :: ys)

/-- The serialized fields of a JSON object, separated by `", "`, each key and
value separated by `": "`. -/
def dumpMembers : List (String × JsonVal) → List Char
  | [] => []
  | [(k, v)] => encodeString k ++ ':' :: ' ' :: dumpVal v
  | (k, v) :: p :: ps =>
    encodeString k ++ ':' :: ' ' :: dumpVal v ++ ',' :: ' ' :: dumpMembers (p :: ps)
end

/-- Modelled from the spec: Python `json.dumps`, as a `String`. -/
def json_dumps (v : JsonVal) : String := String.mk (dumpVal v)

/-- JSON insignificant whitespace. -/
def isWsChar (c : Char) : Bool := c = ' ' || c = '\t' || c = '\n' || c = '\r'

/-- Drop leading JSON whitespace. -/
def skipWs : List Char → List Char
  | [] => []
  | c :: rest => if isWsChar c then skipWs rest else c :: rest

/-- Does the input start with the character `c`? -/
def startsWithChar (c : Char) : List Char → Bool
  | [] => false
  | x :: _ => x = c

/-- Consume an expected literal tail, such as `ull` after the `n` of `null`. -/
def dropLit : List Char → List Char → Option (List Char)
  | [], input => some input
  | _ :: _, [] => none
  | p :: ps, c :: rest => if c = p then dropLit ps rest else none

/-- The numeric value of a hexadecimal digit character. -/
def hexVal (c : Char) : Option Nat :=
  if c.isDigit then some (c.toNat - 48)
  else if 'a' ≤ c && c ≤ 'f' then some (c.toNat - 87)
  else if 'A' ≤ c && c ≤ 'F' then some (c.toNat - 55)
  else none

/-- Parse the body of a JSON string after the opening quote, returning its
characters and the input after the closing quote. -/
def parseStringBody : List Char → Option (List Char × List Char)
  | [] => none
  | c :: rest =>
    if c = '"' then some ([], rest)
    else if c = '\\' then
      match rest with
      | [] => none
      | e :: rest2 =>
        if e = '"' then (parseStringBody rest2).map (fun p => ('"' :: p.1, p.2))
        else if e = '\\' then (parseStringBody rest2).map (fun p => ('\\' :: p.1, p.2))
        else if e = '/' then (parseStringBody rest2).map (fun p => ('/' :: p.1, p.2))
        else if e = 'b' then (parseStringBody rest2).map (fun p => (Char.ofNat 8 :: p.1, p.2))
        else if e = 'f' then (parseStringBody rest2).map (fun p => (Char.ofNat 12 :: p.1, p.2))
        else if e = 'n' then (parseStringBody rest2).map (fun p => ('\n' :: p.1, p.2))
        else if e = 'r' then (parseStringBody rest2).map (fun p => (Char.ofNat 13 :: p.1, p.2))
        else if e = 't' then (parseStringBody rest2).map (fun p => ('\t' :: p.1, p.2))
        else if e = 'u' then
          match rest2 with
          | h1 :: h2 :: h3 :: h4 :: rest3 =>
            match hexVal h1, hexVal h2, hexVal h3, hexVal h4 with
            | some a, some b, some c2, some d =>
              (parseStringBody rest3).map
                (fun p => (Char.ofNat (((a * 16 + b) * 16 + c2) * 16 + d) :: p.1, p.2))
            | _, _, _, _ => none
          | _ => none
        else none
    else (parseStringBody rest).map (fun p => (c :: p.1, p.2))

/-- Consume a maximal run of decimal digits, folding them onto `acc`. -/
def parseDigits : List Char → Nat → Nat × List Char
  | [], acc => (acc, [])
  | c :: rest, acc =>
    if c.isDigit then parseDigits rest (acc * 10 + (c.toNat - 48)) else (acc, c :: rest)

/-- Parse a natural number: at least one digit, maximal munch. -/
def parseNat : List Char → Option (Nat × List Char)
  | [] => none
  | c :: rest =>
    if c.isDigit then some (parseDigits rest (c.toNat - 48)) else none

mutual
/-- Modelled from the spec: the value parser of Python `json.loads`, with
explicit fuel (any fuel at least the nesting need of the value suffices). -/
def parseVal : Nat → List Char → Option (JsonVal × List Char)
  | 0, _ => none
  | fuel + 1, input =>
    match skipWs input with
    | [] => none
    | c :: rest =>
      if c = 'n' then (dropLit ['u', 'l', 'l'] rest).map (fun r => (JsonVal.null, r))
      else if c = 't' then (dropLit ['r', 'u', 'e'] rest).map (fun r => (JsonVal.bool true, r))
      else if c = 'f' then (dropLit ['a', 'l', 's', 'e'] rest).map (fun r => (JsonVal.bool false, r))
      else if c = '"' then (parseStringBody rest).map (fun p => (JsonVal.str (String.mk p.1), p.2))
      else if c = '-' then (parseNat rest).map (fun p => (JsonVal.num (-(p.1 : Int)), p.2))
      else if c = '[' then
        let t := skipWs rest
        if startsWithChar ']' t then some (JsonVal.arr [], t.tail)
        else (parseElems fuel t).map (fun p => (JsonVal.arr p.1, p.2))
      else if c = '\x7b' then
        let t := skipWs rest
        if startsWithChar '\x7d' t then some (JsonVal.obj [], t.tail)
        else (parseMembers fuel t).map (fun p => (JsonVal.obj p.1, p.2))
      else if c.isDigit then (parseNat (c :: rest)).map (fun p => (JsonVal.num (p.1 : Int), p.2))
      else none

/-- Parse the elements of a non-empty JSON array, up to and including the
closing bracket. -/
def parseElems : Nat → List Char → Option (List JsonVal × List Char)
  | 0, _ => none
  | fuel + 1, input =>
    match parseVal fuel input with
    | none => none
    | some (v, r) =>
      let t := skipWs r
      if startsWithChar ',' t then (parseElems fuel t.tail).map (fun p => (v :: p.1, p.2))
      else if startsWithChar ']' t then some ([v], t.tail)
      else none

/-- Parse the fields of a non-empty JSON object, up to and including the
closing brace. -/
def parseMembers : Nat → List Char → Option (List (String × JsonVal) × List Char)
  | 0, _ => none
  | fuel + 1, input =>
    match skipWs input with
    | [] => none
    | c :: rest =>
      if c = '"' then
        match parseStringBody rest with
        | none => none
        | some (k, r1) =>
          let t1 := skipWs r1
          if startsWithChar ':' t1 then
            match parseVal fuel t1.tail with
            | none => none
            | some (v, r2) =>
              let t2 := skipWs r2
              if startsWithChar ',' t2 then
                (parseMembers fuel t2.tail).map (fun p => ((String.mk k, v) :: p.1, p.2))
              else if startsWithChar '\x7d' t2 then some ([(String.mk k, v)], t2.tail)
              else none
          else none
      else none
end

/-- Modelled from the spec: Python `json.loads` (the standard library is not
part of the sources). Fails unless the whole input is one JSON value followed
only by whitespace. -/
def json_loads (s : String) : Option JsonVal :=
  match parseVal (s.data.length + 1) s.data with
  | some (v, rest) => if (skipWs rest).isEmpty then some v else none
  | none => none

mutual
/-- Fuel needed by `parseVal` to read back a serialized value. -/
def needV : JsonVal → Nat
  | .arr xs => 1 + needE xs
  | .obj fs => 1 + needM fs
  | .null => 1
  | .bool _b => 1
  | .num _n => 1
  | .str _s => 1

/-- Fuel needed by `parseElems` to read back serialized array elements. -/
def needE : List JsonVal → Nat
  | [] => 0
  | x :: xs => 1 + needV x + needE xs

/-- Fuel needed by `parseMembers` to read back serialized object fields. -/
def needM : List (String × JsonVal) → Nat
  | [] => 0
  | (_, v) :: ps => 1 + needV v + needM ps
end

/-- Does the input not start with a decimal digit? Appending such a remainder
to a serialized number leaves the number readable by maximal munch. -/
def headNotDigit : List Char → Bool
  | [] => true
  | c :: _ => !c.isDigit

/-- The value read back from a run of digit characters, folded onto `acc`. -/
def digitsAcc : List Char → Nat → Nat
  | [], acc => acc
  | c :: cs, acc => digitsAcc cs (acc * 10 + (c.toNat - 48))

theorem digitChar_toNat {n : Nat} (h : n < 10) : (digitChar n).toNat = 48 + n := by
  interval_cases n <;> decide

theorem isDigit_digitChar {n : Nat} (h : n < 10) : (digitChar n).isDigit = true := by
  interval_cases n <;> decide

theorem natCharsAux_all_digit : ∀ fuel n, n < fuel → ∀ c ∈ natCharsAux fuel n,
    c.isDigit = true := by
  intro fuel
  induction fuel with
  | zero => intro n hn; omega
  | succ fuel ih =>
    intro n hn
    rw [natCharsAux]
    split
    · intro c hc
      rcases List.mem_singleton.mp hc with rfl
      exact isDigit_digitChar (by omega)
    · intro c hc
      rcases List.mem_append.mp hc with h | h
      · exact ih (n / 10) (by omega) c h
      · rcases List.mem_singleton.mp h with rfl
        exact isDigit_digitChar (Nat.mod_lt _ (by omega))

theorem natChars_all_digit (n : Nat) : ∀ c ∈ natChars n, c.isDigit = true :=
  natCharsAux_all_digit (n + 1) n (by omega)

theorem natCharsAux_ne_nil : ∀ fuel n, n < fuel → natCharsAux fuel n ≠ [] := by
  intro fuel
  induction fuel with
  | zero => intro n hn; omega
  | succ fuel ih =>
    intro n hn
    rw [natCharsAux]
    split
    · simp
    · simp

theorem natChars_ne_nil (n : Nat) : natChars n ≠ [] :=
  natCharsAux_ne_nil (n + 1) n (by omega)

theorem digitsAcc_append (a b : List Char) (acc : Nat) :
    digitsAcc (a ++ b) acc = digitsAcc b (digitsAcc a acc) := by
  induction a generalizing acc with
  | nil => rfl
  | cons c cs ih => simp [digitsAcc, ih]

theorem digitsAcc_natCharsAux : ∀ fuel n acc, n < fuel →
    digitsAcc (natCharsAux fuel n) acc = acc * 10 ^ (natCharsAux fuel n).length + n := by
  intro fuel
  induction fuel with
  | zero => intro n acc hn; omega
  | succ fuel ih =>
    intro n acc hn
    rw [natCharsAux]
    split
    · next h =>
      simp [digitsAcc, digitChar_toNat h]
    · next h =>
      rw [digitsAcc_append, ih (n / 10) acc (by omega)]
      simp [digitsAcc, digitChar_toNat (Nat.mod_lt n (by omega) : n % 10 < 10)]
      rw [pow_succ]
      have h10 : 10 * (n / 10) + n % 10 = n := Nat.div_add_mod n 10
      ring_nf
      omega

theorem digitsAcc_natChars (n acc : Nat) :
    digitsAcc (natChars n) acc = acc * 10 ^ (natChars n).length + n :=
  digitsAcc_natCharsAux (n + 1) n acc (by omega)

theorem parseDigits_all (ds : List Char) (hds : ∀ c ∈ ds, c.isDigit = true)
    (rest : List Char) (hr : headNotDigit rest = true) (acc : Nat) :
    parseDigits (ds ++ rest) acc = (digitsAcc ds acc, rest) := by
  induction ds generalizing acc with
  | nil =>
    cases rest with
    | nil => rfl
    | cons c r =>
      simp only [headNotDigit, Bool.not_eq_true'] at hr
      simp [parseDigits, hr, digitsAcc]
  | cons c cs ih =>
    have hc : c.isDigit = true := hds c (by simp)
    simp only [List.cons_append, parseDigits, hc, if_pos]
    exact ih (fun x hx => hds x (by simp [hx])) _

theorem parseNat_natChars (n : Nat) (rest : List Char) (hr : headNotDigit rest = true) :
    parseNat (natChars n ++ rest) = some (n, rest) := by
  rcases hcs : natChars n with _ | ⟨c, cs⟩
  · exact absurd hcs (natChars_ne_nil n)
  · have hall : ∀ x ∈ natChars n, x.isDigit = true := natChars_all_digit n
    have hc : c.isDigit = true := hall c (by simp [hcs])
    have hcs' : ∀ x ∈ cs, x.isDigit = true := fun x hx => hall x (by simp [hcs, hx])
    simp only [List.cons_append, parseNat, hc, if_pos]
    rw [parseDigits_all cs hcs' rest hr]
    have := digitsAcc_natChars n 0
    rw [hcs] at this
    simp [digitsAcc] at this
    simp [this]

theorem hexVal_hexDigit {d : Nat} (h : d < 16) : hexVal (hexDigit d) = some d := by
  interval_cases d <;> decide

theorem char_lt_32_reassemble (c : Char) (h : c.toNat < 32) :
    Char.ofNat (((c.toNat / 4096 % 16 * 16 + c.toNat / 256 % 16) * 16 +
      c.toNat / 16 % 16) * 16 + c.toNat % 16) = c := by
  have heq : ((c.toNat / 4096 % 16 * 16 + c.toNat / 256 % 16) * 16 +
      c.toNat / 16 % 16) * 16 + c.toNat % 16 = c.toNat := by omega
  rw [heq, Char.ofNat_toNat]

theorem isDigit_ne {c : Char} (h : c.isDigit = true) (d : Char) (hd : d.isDigit = false) :
    c ≠ d := by
  rintro rfl
  rw [h] at hd
  exact absurd hd (by decide)

theorem isDigit_not_ws {c : Char} (h : c.isDigit = true) : isWsChar c = false := by
  simp only [isWsChar, Bool.or_eq_false_iff, decide_eq_false_iff_not]
  exact ⟨⟨⟨isDigit_ne h ' ' (by decide), isDigit_ne h '\t' (by decide)⟩,
    isDigit_ne h '\n' (by decide)⟩, isDigit_ne h '\r' (by decide)⟩

theorem parseStringBody_escString : ∀ (s rest : List Char),
    parseStringBody (escString s ++ '"' :: rest) = some (s, rest) := by
  intro s
  induction s with
  | nil =>
    intro rest
    rw [escString, List.nil_append, parseStringBody.eq_def]
    simp
  | cons c cs ih =>
    intro rest
    by_cases hq : c = '"'
    · subst hq
      rw [escString, escapeChar, if_pos rfl]
      rw [List.cons_append, List.cons_append, parseStringBody.eq_def]
      simp [ih]
    · by_cases hb : c = '\\'
      · subst hb
        rw [escString, escapeChar, if_neg hq, if_pos rfl]
        rw [List.cons_append, List.cons_append, parseStringBody.eq_def]
        simp [ih]
      · by_cases hctl : c.toNat < 32
        · have h16a : c.toNat / 4096 % 16 < 16 := Nat.mod_lt _ (by omega)
          have h16b : c.toNat / 256 % 16 < 16 := Nat.mod_lt _ (by omega)
          have h16c : c.toNat / 16 % 16 < 16 := Nat.mod_lt _ (by omega)
          have h16d : c.toNat % 16 < 16 := Nat.mod_lt _ (by omega)
          rw [escString, escapeChar, if_neg hq, if_neg hb, if_pos hctl, hex4]
          simp only [List.cons_append, List.append_assoc, List.nil_append]
          rw [parseStringBody.eq_def]
          simp only [reduceIte, reduceCtorEq]
          rw [hexVal_hexDigit h16a, hexVal_hexDigit h16b, hexVal_hexDigit h16c,
            hexVal_hexDigit h16d]
          simp [ih, char_lt_32_reassemble c hctl]
        · rw [escString, escapeChar, if_neg hq, if_neg hb, if_neg hctl]
          simp only [List.cons_append, List.nil_append]
          rw [parseStringBody.eq_def]
          simp [hq, hb, ih]

theorem skipWs_not_ws {c : Char} (h : isWsChar c = false) (l : List Char) :
    skipWs (c :: l) = c :: l := by simp [skipWs, h]

theorem skipWs_ws {c : Char} (h : isWsChar c = true) (l : List Char) :
    skipWs (c :: l) = skipWs l := by simp [skipWs, h]

theorem parseVal_ws {c : Char} (h : isWsChar c = true) (fuel : Nat) (l : List Char) :
    parseVal fuel (c :: l) = parseVal fuel l := by
  cases fuel with
  | zero => rfl
  | succ f => simp only [parseVal, skipWs_ws h]

theorem parseElems_ws {c : Char} (h : isWsChar c = true) (fuel : Nat) (l : List Char) :
    parseElems fuel (c :: l) = parseElems fuel l := by
  cases fuel with
  | zero => rfl
  | succ f => simp only [parseElems, parseVal_ws h]

theorem parseMembers_ws {c : Char} (h : isWsChar c = true) (fuel : Nat) (l : List Char) :
    parseMembers fuel (c :: l) = parseMembers fuel l := by
  cases fuel with
  | zero => rfl
  | succ f => simp only [parseMembers, skipWs_ws h]

theorem needV_pos (v : JsonVal) : 1 ≤ needV v := by
  cases v <;> simp [needV]

theorem natChars_head (n : Nat) : ∃ c l, natChars n = c :: l ∧ c.isDigit = true := by
  rcases h : natChars n with _ | ⟨c, l⟩
  · exact absurd h (natChars_ne_nil n)
  · exact ⟨c, l, rfl, natChars_all_digit n c (by simp [h])⟩

/-- The first character of a serialized value is never whitespace and never a
closing bracket, closing brace, comma or colon. -/
theorem dumpVal_head (v : JsonVal) : ∃ c l, dumpVal v = c :: l ∧
    isWsChar c = false ∧ c ≠ ']' ∧ c ≠ '\x7d' ∧ c ≠ ',' ∧ c ≠ ':' := by
  cases v with
  | null => exact ⟨'n', _, rfl, by decide, by decide, by decide, by decide, by decide⟩
  | bool b =>
    cases b with
    | true => exact ⟨'t', _, rfl, by decide, by decide, by decide, by decide, by decide⟩
    | false => exact ⟨'f', _, rfl, by decide, by decide, by decide, by decide, by decide⟩
  | num n =>
    show ∃ c l, intChars n = c :: l ∧ _
    rw [intChars]
    by_cases hn : n < 0
    · rw [if_pos hn]
      exact ⟨'-', _, rfl, by decide, by decide, by decide, by decide, by decide⟩
    · rw [if_neg hn]
      obtain ⟨c, l, hcl, hc⟩ := natChars_head n.natAbs
      exact ⟨c, l, hcl, isDigit_not_ws hc, isDigit_ne hc ']' (by decide),
        isDigit_ne hc '\x7d' (by decide), isDigit_ne hc ',' (by decide),
        isDigit_ne hc ':' (by decide)⟩
  | str s => exact ⟨'"', _, rfl, by decide, by decide, by decide, by decide, by decide⟩
  | arr xs => exact ⟨'[', _, rfl, by decide, by decide, by decide, by decide, by decide⟩
  | obj fs => exact ⟨'\x7b', _, rfl, by decide, by decide, by decide, by decide, by decide⟩

theorem dumpElems_cons_eq (x : JsonVal) (xs : List JsonVal) :
    ∃ t, dumpElems (x :: xs) = dumpVal x ++ t := by
  cases xs with
  | nil => exact ⟨[], by simp [dumpElems]⟩
  | cons y ys => exact ⟨_, rfl⟩

theorem dumpMembers_cons_eq (k : String) (w : JsonVal) (ps : List (String × JsonVal)) :
    ∃ t, dumpMembers ((k, w) :: ps) = '"' :: (escString k.data ++ t) := by
  cases ps with
  | nil => exact ⟨'"' :: ':' :: ' ' :: dumpVal w, by simp [dumpMembers, encodeString]⟩
  | cons q qs => exact ⟨'"' :: ':' :: ' ' :: (dumpVal w ++ ',' :: ' ' :: dumpMembers (q :: qs)),
      by simp [dumpMembers, encodeString]⟩

/-- The parser reads back exactly what the serializer wrote, leaving the
appended remainder untouched, for any fuel at least the nesting need. -/
theorem parse_dump (fuel : Nat) :
    (∀ v rest, needV v ≤ fuel → headNotDigit rest = true →
      parseVal fuel (dumpVal v ++ rest) = some (v, rest)) ∧
    (∀ xs rest, xs ≠ [] → needE xs ≤ fuel →
      parseElems fuel (dumpElems xs ++ ']' :: rest) = some (xs, rest)) ∧
    (∀ ps rest, ps ≠ [] → needM ps ≤ fuel →
      parseMembers fuel (dumpMembers ps ++ '\x7d' :: rest) = some (ps, rest)) := by
  induction fuel with
  | zero =>
    refine ⟨fun v rest hv _ => ?_, fun xs rest hxs hx => ?_, fun ps rest hps hp => ?_⟩
    · have := needV_pos v; omega
    · cases xs with
      | nil => exact absurd rfl hxs
      | cons a as => simp only [needE] at hx; omega
    · cases ps with
      | nil => exact absurd rfl hps
      | cons a as => obtain ⟨k, w⟩ := a; simp only [needM] at hp; omega
  | succ fuel ih =>
    obtain ⟨ihV, ihE, ihM⟩ := ih
    refine ⟨?_, ?_, ?_⟩
    · intro v rest hv hrest
      cases v with
      | null =>
        rw [show dumpVal .null ++ rest = 'n' :: 'u' :: 'l' :: 'l' :: rest from rfl]
        simp only [parseVal]
        rw [skipWs_not_ws (by decide)]
        simp [dropLit]
      | bool b =>
        cases b with
        | true =>
          rw [show dumpVal (.bool true) ++ rest = 't' :: 'r' :: 'u' :: 'e' :: rest from rfl]
          simp only [parseVal]
          rw [skipWs_not_ws (by decide)]
          simp [dropLit]
        | false =>
          rw [show dumpVal (.bool false) ++ rest =
            'f' :: 'a' :: 'l' :: 's' :: 'e' :: rest from rfl]
          simp only [parseVal]
          rw [skipWs_not_ws (by decide)]
          simp [dropLit]
      | num n =>
        simp only [dumpVal, intChars]
        by_cases hn : n < 0
        · rw [if_pos hn]
          have hpn : parseNat (natChars n.natAbs ++ rest) = some (n.natAbs, rest) :=
            parseNat_natChars n.natAbs rest hrest
          simp only [List.cons_append, parseVal]
          rw [skipWs_not_ws (by decide)]
          simp [hpn, Int.natCast_natAbs, abs_of_neg hn]
        · rw [if_neg hn]
          obtain ⟨c, l, hcl, hc⟩ := natChars_head n.natAbs
          rw [hcl, List.cons_append]
          have hpn : parseNat (c :: (l ++ rest)) = some (n.natAbs, rest) := by
            rw [show c :: (l ++ rest) = (c :: l) ++ rest from rfl, ← hcl]
            exact parseNat_natChars n.natAbs rest hrest
          simp only [parseVal]
          rw [skipWs_not_ws (isDigit_not_ws hc)]
          simp [isDigit_ne hc 'n' (by decide), isDigit_ne hc 't' (by decide),
            isDigit_ne hc 'f' (by decide), isDigit_ne hc '"' (by decide),
            isDigit_ne hc '-' (by decide), isDigit_ne hc '[' (by decide),
            isDigit_ne hc '\x7b' (by decide), hc, hpn, Int.natCast_natAbs,
            abs_of_nonneg (not_lt.mp hn)]
      | str s =>
        have hstr : parseStringBody (escString s.data ++ '"' :: rest) = some (s.data, rest) :=
          parseStringBody_escString _ _
        simp only [dumpVal, encodeString, List.cons_append, List.append_assoc,
          List.singleton_append, List.nil_append, parseVal]
        rw [skipWs_not_ws (by decide)]
        simp [hstr]
      | arr xs =>
        cases xs with
        | nil =>
          simp only [dumpVal, dumpElems, List.nil_append, List.cons_append, parseVal]
          rw [skipWs_not_ws (by decide)]
          simp [skipWs, isWsChar, startsWithChar]
        | cons x xs2 =>
          simp only [needV] at hv
          obtain ⟨t, ht⟩ := dumpElems_cons_eq x xs2
          obtain ⟨c, l, hcl, hws, hrb, hbr, hcm, hco⟩ := dumpVal_head x
          have hne : dumpElems (x :: xs2) ++ ']' :: rest = c :: (l ++ (t ++ ']' :: rest)) := by
            rw [ht, hcl]; simp
          simp only [dumpVal, List.cons_append, List.append_assoc, List.nil_append, parseVal]
          rw [skipWs_not_ws (by decide)]
          have hskip : skipWs (dumpElems (x :: xs2) ++ ']' :: rest) =
              dumpElems (x :: xs2) ++ ']' :: rest := by
            rw [hne]; exact skipWs_not_ws hws _
          have hsw : startsWithChar ']' (dumpElems (x :: xs2) ++ ']' :: rest) = false := by
            rw [hne]; simp [startsWithChar, hrb]
          simp [hskip, hsw, ihE (x :: xs2) rest (by simp) (by omega)]
      | obj fs =>
        cases fs with
        | nil =>
          simp only [dumpVal, dumpMembers, List.nil_append, List.cons_append, parseVal]
          rw [skipWs_not_ws (by decide)]
          simp [skipWs, isWsChar, startsWithChar]
        | cons p ps2 =>
          obtain ⟨k, w⟩ := p
          simp only [needV] at hv
          obtain ⟨t, ht⟩ := dumpMembers_cons_eq k w ps2
          have hne : dumpMembers ((k, w) :: ps2) ++ '\x7d' :: rest =
              '"' :: (escString k.data ++ (t ++ '\x7d' :: rest)) := by
            rw [ht]; simp
          simp only [dumpVal, List.cons_append, List.append_assoc, List.nil_append, parseVal]
          rw [skipWs_not_ws (by decide)]
          have hskip : skipWs (dumpMembers ((k, w) :: ps2) ++ '\x7d' :: rest) =
              dumpMembers ((k, w) :: ps2) ++ '\x7d' :: rest := by
            rw [hne]; exact skipWs_not_ws (c := '"') (by decide) _
          have hsw : startsWithChar '\x7d' (dumpMembers ((k, w) :: ps2) ++ '\x7d' :: rest) =
              false := by
            rw [hne]; simp [startsWithChar]
          simp [hskip, hsw, ihM ((k, w) :: ps2) rest (by simp) (by omega)]
    · intro xs rest hxs hx
      cases xs with
      | nil => exact absurd rfl hxs
      | cons x xs2 =>
        simp only [needE] at hx
        cases xs2 with
        | nil =>
          simp only [dumpElems, parseElems]
          rw [ihV x (']' :: rest) (by omega) (by simp [headNotDigit])]
          simp [skipWs, isWsChar, startsWithChar]
        | cons y ys =>
          simp only [dumpElems, List.append_assoc, List.cons_append, parseElems]
          rw [ihV x _ (by omega) (by simp [headNotDigit])]
          have htail : parseElems fuel (' ' :: (dumpElems (y :: ys) ++ ']' :: rest)) =
              some (y :: ys, rest) := by
            rw [parseElems_ws (by decide)]
            exact ihE (y :: ys) rest (by simp) (by omega)
          simp [skipWs, isWsChar, startsWithChar, htail]
    · intro ps rest hps hp
      cases ps with
      | nil => exact absurd rfl hps
      | cons p ps2 =>
        obtain ⟨k, w⟩ := p
        simp only [needM] at hp
        cases ps2 with
        | nil =>
          have hstr : parseStringBody (escString k.data ++
              '"' :: ':' :: ' ' :: (dumpVal w ++ '\x7d' :: rest)) =
              some (k.data, ':' :: ' ' :: (dumpVal w ++ '\x7d' :: rest)) :=
            parseStringBody_escString _ _
          have hval : parseVal fuel (' ' :: (dumpVal w ++ '\x7d' :: rest)) =
              some (w, '\x7d' :: rest) := by
            rw [parseVal_ws (by decide)]
            exact ihV w ('\x7d' :: rest) (by omega) (by simp [headNotDigit])
          simp only [dumpMembers, encodeString, List.cons_append, List.append_assoc,
            List.singleton_append, List.nil_append, parseMembers]
          rw [skipWs_not_ws (by decide)]
          simp [hstr, hval, skipWs, isWsChar, startsWithChar]
        | cons q qs =>
          obtain ⟨k2, w2⟩ := q
          have hstr : parseStringBody (escString k.data ++ '"' :: ':' :: ' ' ::
              (dumpVal w ++ ',' :: ' ' :: (dumpMembers ((k2, w2) :: qs) ++ '\x7d' :: rest))) =
              some (k.data, ':' :: ' ' ::
                (dumpVal w ++ ',' :: ' ' :: (dumpMembers ((k2, w2) :: qs) ++ '\x7d' :: rest))) :=
            parseStringBody_escString _ _
          have hval : parseVal fuel (' ' ::
              (dumpVal w ++ ',' :: ' ' :: (dumpMembers ((k2, w2) :: qs) ++ '\x7d' :: rest))) =
              some (w, ',' :: ' ' :: (dumpMembers ((k2, w2) :: qs) ++ '\x7d' :: rest)) := by
            rw [parseVal_ws (by decide)]
            exact ihV w _ (by omega) (by simp [headNotDigit])
          have htail : parseMembers fuel (' ' :: (dumpMembers ((k2, w2) :: qs) ++ '\x7d' :: rest)) =
              some ((k2, w2) :: qs, rest) := by
            rw [parseMembers_ws (by decide)]
            refine ihM ((k2, w2) :: qs) rest (by simp) ?_
            simp only [needM] at hp ⊢
            omega
          simp only [dumpMembers, encodeString, List.cons_append, List.append_assoc,
            List.singleton_append, List.nil_append, parseMembers]
          rw [skipWs_not_ws (by decide)]
          simp [hstr, hval, htail, skipWs, isWsChar, startsWithChar]


theorem needE_le (xs : List JsonVal) (h : ∀ x ∈ xs, needV x ≤ (dumpVal x).length) :
    needE xs ≤ (dumpElems xs).length + 1 := by
  induction xs with
  | nil => simp [needE, dumpElems]
  | cons x t ih =>
    cases t with
    | nil =>
      have := h x (by simp)
      simp only [needE, dumpElems, List.length_nil]
      omega
    | cons y ys =>
      have hx := h x (by simp)
      have ih2 := ih (fun z hz => h z (by simp [hz]))
      simp only [needE, dumpElems, List.length_append, List.length_cons] at *
      omega

theorem needM_le (ps : List (String × JsonVal))
    (h : ∀ p ∈ ps, needV p.2 ≤ (dumpVal p.2).length) :
    needM ps ≤ (dumpMembers ps).length + 1 := by
  induction ps with
  | nil => simp [needM, dumpMembers]
  | cons p t ih =>
    obtain ⟨k, w⟩ := p
    cases t with
    | nil =>
      have := h (k, w) (by simp)
      simp only [needM, dumpMembers, List.length_append, List.length_cons] at *
      omega
    | cons q qs =>
      have hw := h (k, w) (by simp)
      have ih2 := ih (fun z hz => h z (by simp [hz]))
      simp only [needM, dumpMembers, List.length_append, List.length_cons] at *
      omega

theorem needV_le_aux : ∀ (N : Nat) (v : JsonVal), sizeOf v ≤ N →
    needV v ≤ (dumpVal v).length := by
  intro N
  induction N with
  | zero => intro v hv; cases v <;> simp at hv
  | succ N ih =>
    intro v _hv
    cases v with
    | null => simp [needV, dumpVal]
    | bool b => cases b <;> simp [needV, dumpVal]
    | num n =>
      rcases hcs : natChars n.natAbs with _ | ⟨c, l⟩
      · exact absurd hcs (natChars_ne_nil _)
      · simp only [needV, dumpVal, intChars]
        split <;> simp [hcs]
    | str s => simp [needV, dumpVal, encodeString]
    | arr xs =>
      have hmem : ∀ x ∈ xs, needV x ≤ (dumpVal x).length := by
        intro x hx
        apply ih
        have h1 : sizeOf x < sizeOf xs := List.sizeOf_lt_of_mem hx
        have h2 : sizeOf (JsonVal.arr xs) = 1 + sizeOf xs := by simp
        omega
      have := needE_le xs hmem
      simp only [needV, dumpVal, List.length_append, List.length_cons]
      omega
    | obj fs =>
      have hmem : ∀ p ∈ fs, needV p.2 ≤ (dumpVal p.2).length := by
        intro p hp
        apply ih
        have h1 : sizeOf p < sizeOf fs := List.sizeOf_lt_of_mem hp
        have h2 : sizeOf (JsonVal.obj fs) = 1 + sizeOf fs := by simp
        obtain ⟨a, b⟩ := p
        have h3 : sizeOf ((a, b) : String × JsonVal) = 1 + sizeOf a + sizeOf b := by simp
        simp only [] at h1 ⊢
        omega
      have := needM_le fs hmem
      simp only [needV, dumpVal, List.length_append, List.length_cons]
      omega

theorem needV_le (v : JsonVal) : needV v ≤ (dumpVal v).length :=
  needV_le_aux (sizeOf v) v le_rfl

/-- Round trip: serializing any JSON value with the modelled `json.dumps` and
reading it back with the modelled `json.loads` returns the value unchanged. -/
theorem json_loads_json_dumps (v : JsonVal) : json_loads (json_dumps v) = some v := by
  have h := (parse_dump ((dumpVal v).length + 1)).1 v []
    (le_trans (needV_le v) (Nat.le_succ _)) (by simp [headNotDigit])
  rw [List.append_nil] at h
  unfold json_loads
  rw [show (json_dumps v).data = dumpVal v from rfl, h]
  simp [skipWs]

theorem jeqList_refl_of (xs : List JsonVal) (h : ∀ x ∈ xs, jeqVal x x = true) :
    jeqList xs xs = true := by
  induction xs with
  | nil => rfl
  | cons x t ih => simp [jeqList, h x (by simp), ih (fun z hz => h z (by simp [hz]))]

theorem jeqMembers_refl_of (ps : List (String × JsonVal))
    (h : ∀ p ∈ ps, jeqVal p.2 p.2 = true) : jeqMembers ps ps = true := by
  induction ps with
  | nil => rfl
  | cons p t ih =>
    obtain ⟨k, w⟩ := p
    simp [jeqMembers, h (k, w) (by simp), ih (fun z hz => h z (by simp [hz]))]

theorem jeqVal_refl_aux : ∀ (N : Nat) (v : JsonVal), sizeOf v ≤ N → jeqVal v v = true := by
  intro N
  induction N with
  | zero => intro v hv; cases v <;> simp at hv
  | succ N ih =>
    intro v _hv
    cases v with
    | null => rfl
    | bool b => simp [jeqVal]
    | num n => simp [jeqVal]
    | str s => simp [jeqVal]
    | arr xs =>
      show jeqList xs xs = true
      refine jeqList_refl_of xs (fun x hx => ih x ?_)
      have h1 : sizeOf x < sizeOf xs := List.sizeOf_lt_of_mem hx
      have h2 : sizeOf (JsonVal.arr xs) = 1 + sizeOf xs := by simp
      omega
    | obj fs =>
      show jeqMembers fs fs = true
      refine jeqMembers_refl_of fs (fun p hp => ih p.2 ?_)
      have h1 : sizeOf p < sizeOf fs := List.sizeOf_lt_of_mem hp
      have h2 : sizeOf (JsonVal.obj fs) = 1 + sizeOf fs := by simp
      obtain ⟨a, b⟩ := p
      have h3 : sizeOf ((a, b) : String × JsonVal) = 1 + sizeOf a + sizeOf b := by simp
      simp only [] at h1 ⊢
      omega

theorem jeqVal_refl (v : JsonVal) : jeqVal v v = true :=
  jeqVal_refl_aux (sizeOf v) v le_rfl

/-- A database row: an association list from column name to value. -/
abbrev Row := List (String × String)

/-- Look a column up in a row; the first binding wins. -/
def rowGet : Row → String → Option String
  | [], _ => none
  | (k, v) :: rest, col => if k = col then some v else rowGet rest col

/-- Modelled from the spec: the SQL text and bound parameters produced by the
query builder `sql.filtered_query` (`lutris/database/sql.py`, not among the
sources): every criteria value is bound as a `?` parameter, never concatenated
into the query text. -/
structure SqlQuery where
  text : String
  params : List String
deriving DecidableEq, Repr

/-- Modelled from the spec: build the parameterized query for one table from
the criteria facets (substring/LIKE for searches, equality for filters,
inequality for excludes, ORDER BY for sorts). -/
def buildQuery (table : String) (searches filters excludes : List (String × String))
    (sorts : List String) : SqlQuery :=
  let conds := searches.map (fun p => p.1 ++ " LIKE ?") ++
    filters.map (fun p => p.1 ++ " = ?") ++ excludes.map (fun p => p.1 ++ " != ?")
  { text := "SELECT * FROM " ++ table ++
      (if conds.isEmpty then "" else " WHERE " ++ String.intercalate " AND " conds) ++
      (if sorts.isEmpty then "" else " ORDER BY " ++ String.intercalate ", " sorts)
    params := searches.map (fun p => "%" ++ p.2 ++ "%") ++ filters.map Prod.snd ++
      excludes.map Prod.snd }

/-- Does the needle occur at the start of the haystack? -/
def leadsWith : List Char → List Char → Bool
  | [], _hay => true
  | n :: ns, h :: hs => n = h && leadsWith ns hs
  | _ :: _, [] => false

/-- Does the needle occur anywhere in the haystack? -/
def occursIn (needle : List Char) : List Char → Bool
  | [] => needle.isEmpty
  | h :: hs => leadsWith needle (h :: hs) || occursIn needle hs

/-- Modelled from the spec: one row against the three AND-combined criteria
facets: substring match for searches, equality for filters, inequality for
excludes (an absent column satisfies neither, as SQL NULL comparisons do). -/
def rowMatchesAll (searches filters excludes : List (String × String)) (r : Row) : Bool :=
  searches.all (fun p => match rowGet r p.1 with
    | some v => occursIn p.2.data v.data
    | none => false) &&
  filters.all (fun p => rowGet r p.1 == some p.2) &&
  excludes.all (fun p => match rowGet r p.1 with
    | some v => !(v == p.2)
    | none => false)

/-- Modelled from the spec: executing the built query over the stored table:
the rows satisfying all criteria, in storage order (the reordering `sorts`
would impose is not modelled; no claim depends on it). -/
def runFullQuery (db : List Row) (searches filters excludes : List (String × String)) :
    List Row :=
  db.filter (fun r => rowMatchesAll searches filters excludes r)

/-- `ServiceGameCollection.get_service_games`: passthrough to the query
builder on the `service_games` table. -/
def get_service_games (db : List Row) (searches filters excludes : List (String × String)) :
    List Row :=
  runFullQuery db searches filters excludes

/-- `ServiceGameCollection.get_for_service`: `ValueError` on a falsy service,
otherwise all rows whose `service` column equals the argument. A falsy Python
string argument (empty, or the absent/None case) is modelled by `""`. -/
def get_for_service (db : List Row) (service : String) : Except String (List Row) :=
  if service = "" then .error "No service provided"
  else .ok (runFullQuery db [] [("service", service)] [])

/-- Python dict insertion: overwrite in place when the key exists, append
otherwise. -/
def dictInsert (d : List (String × String)) (key value : String) : List (String × String) :=
  if d.any (fun p => p.1 == key) then
    d.map (fun p => if p.1 == key then (key, value) else p)
  else d ++ [(key, value)]

/-- The Python dict literal `\x7b"service": service, field: value\x7d` built by
`get_game`: when `field` is itself `"service"`, the second insertion
overwrites the first. -/
def getGameFilters (service value fld : String) : List (String × String) :=
  dictInsert (dictInsert [] "service" service) fld value

/-- What `ServiceGameCollection.get_game` does: raise `ValueError`, return
`None`, or return the first matching row, noting whether the duplicate-match
warning was logged. -/
inductive GetGameResult where
  | invalidArgument (msg : String)
  | notFound
  | found (row : Row) (warned : Bool)
deriving DecidableEq, Repr

/-- `ServiceGameCollection.get_game`: `ValueError` on falsy service or value;
otherwise query with the dict `\x7b"service": service, field: value\x7d`, return
`None` on no match and the first row otherwise, warning when more than one
row matched. -/
def get_game (db : List Row) (service value : String) (fld : String := "appid") :
    GetGameResult :=
  if service = "" then .invalidArgument "No service provided"
  else if value = "" then .invalidArgument "No value provided"
  else
    match runFullQuery db [] (getGameFilters service value fld) [] with
    | [] => .notFound
    | r :: rest => .found r (!rest.isEmpty)

/-- Look a key up in a decoded JSON object (Python `d[key]`; `none` models the
`KeyError` raised when the key is absent). -/
def jget : List (String × JsonVal) → String → Option JsonVal
  | [], _ => none
  | (k, v) :: rest, key => if k = key then some v else jget rest key

/-- The fields of a `ServiceGame` that `RommGame.new_from_romm` assigns; the
`service` column is the class constant `"romm"` and `save` persists these
columns. -/
structure RommServiceGame where
  appid : JsonVal
  slug : JsonVal
  name : JsonVal
  details : String
deriving Repr

/-- `RommGame.new_from_romm`: converts a game from the API to a service game
usable by Lutris; `none` models the `KeyError` raised when a required key is
missing from the record. -/
def new_from_romm (romm_game : List (String × JsonVal)) : Option RommServiceGame := do
  let appid ← jget romm_game "id"
  let slug ← jget romm_game "slug"
  let name ← jget romm_game "name"
  some ⟨appid, slug, name, json_dumps (.obj romm_game)⟩

/-- The Python exceptions that cross the boundaries modelled here. -/
inductive PyExn where
  | valueError
  | keyError
  | typeError
deriving DecidableEq, Repr

/-- Modelled from the spec: what the HTTP layer (`lutris/util/http.py`, not
among the sources) produces for one URL: a decoded JSON body, an `HTTPError`
raised by `Request.get`, or a `ValueError` raised while decoding the body. -/
inductive FetchOutcome where
  | success (body : JsonVal)
  | httpError
  | decodeError
deriving Repr

/-- `RommService.make_api_request`: an `HTTPError` is caught, logged and turned
into the `None` sentinel; a decode failure propagates as `ValueError`. The
network is a function from URL to outcome. -/
def make_api_request (net : String → FetchOutcome) (url : String) :
    Except PyExn (Option JsonVal) :=
  match net url with
  | .httpError => .ok none
  | .decodeError => .error .valueError
  | .success v => .ok (some v)

/-- `RommService.api_url`. -/
def api_url (host_url : String) : String := host_url ++ "/api"

/-- The URL requested by `RommService.get_library`. -/
def library_url (host_url : String) : String :=
  api_url host_url ++ "/roms?order_by=name&order_dir=asc&limit=250"

/-- Python falsiness of a decoded JSON value. -/
def jsonFalsy : JsonVal → Bool
  | .null => true
  | .bool b => !b
  | .num n => n == 0
  | .str s => s == ""
  | .arr xs => xs.isEmpty
  | .obj fs => fs.isEmpty

/-- `RommService.get_library`: `make_api_request(url) or []`. -/
def get_library (net : String → FetchOutcome) (host_url : String) : Except PyExn JsonVal :=
  match make_api_request net (library_url host_url) with
  | .error e => .error e
  | .ok none => .ok (.arr [])
  | .ok (some v) => .ok (if jsonFalsy v then .arr [] else v)

/-- One library entry indexed as Python's `game[...]` does: anything but an
object raises a `TypeError`. -/
def asObj : JsonVal → Except PyExn (List (String × JsonVal))
  | .obj o => .ok o
  | _ => .error .typeError

/-- Iterating the library as Python's `for game in library` with `game[...]`
indexing does: anything but a list of objects raises a `TypeError` at its
first use. -/
def asObjList : JsonVal → Except PyExn (List (List (String × JsonVal)))
  | .arr xs => xs.mapM asObj
  | _ => .error .typeError

/-- Python `name in seen` for the set of names collected during load. -/
def pythonIn (n : JsonVal) (seen : List JsonVal) : Bool := seen.any (fun m => jeqVal m n)

/-- The deduplication loop of `RommService.load`: skip a game whose name was
already seen, otherwise convert it and remember its name. -/
def dedupGames : List (List (String × JsonVal)) → List JsonVal →
    Except PyExn (List RommServiceGame)
  | [], _ => .ok []
  | g :: rest, seen =>
    match jget g "name" with
    | none => .error .keyError
    | some n =>
      if pythonIn n seen then dedupGames rest seen
      else
        match new_from_romm g with
        | none => .error .keyError
        | some sg => (dedupGames rest (n :: seen)).map (fun tl => sg :: tl)

/-- The outcome of `RommService.load`: the games returned (each one persisted
by `game.save()`, modelled from the spec as collecting them), a `RuntimeError`
with its message, or an uncaught Python exception. -/
inductive LoadResult where
  | ok (games : List RommServiceGame)
  | runtimeError (msg : String)
  | pyError (e : PyExn)
deriving Repr

/-- `RommService.load`: fetch the library, wrapping a `ValueError` into the
user-facing `RuntimeError`, then deduplicate by name, persist and return. -/
def load (net : String → FetchOutcome) (host_url : String) : LoadResult :=
  match get_library net host_url with
  | .error .valueError =>
    .runtimeError "Failed to get Romm library. Try logging out and back-in."
  | .error e => .pyError e
  | .ok lib =>
    match asObjList lib with
    | .error e => .pyError e
    | .ok objs =>
      match dedupGames objs [] with
      | .error e => .pyError e
      | .ok games => .ok games

/-- Python `host.endswith("/")`. -/
def pyEndsWithSlash (s : String) : Bool := s.data.getLast? == some '/'

/-- Python `host[:-1]`. -/
def pyDropLast (s : String) : String := String.mk s.data.dropLast

/-- The state `RommService.configure` establishes once the dialog returns: the
in-memory attributes and the JSON text written to the config file (the GTK
dialog itself is external). -/
structure ConfigureOutcome where
  host_url : String
  redirect_uri : String
  config_file : String
deriving DecidableEq, Repr

/-- `RommService.configure` applied to the host URL the user entered: strip
one trailing slash if present, set `host_url` and `redirect_uri`, and write
the config file as JSON `\x7b"host": <url>\x7d`. -/
def configure (user_value : String) : ConfigureOutcome :=
  let new_host := if pyEndsWithSlash user_value then pyDropLast user_value else user_value
  ⟨new_host, new_host ++ "/scan", json_dumps (.obj [("host", .str new_host)])⟩

theorem runFullQuery_filters (db : List Row) (filters : List (String × String)) :
    runFullQuery db [] filters [] =
      db.filter (fun r => filters.all (fun p => rowGet r p.1 == some p.2)) := by
  unfold runFullQuery
  simp [rowMatchesAll]

theorem getGameFilters_ne (service value fld : String) (h : fld ≠ "service") :
    getGameFilters service value fld = [("service", service), (fld, value)] := by
  have h2 : ("service" == fld) = false := by
    simp only [beq_eq_false_iff_ne]
    exact Ne.symm h
  simp [getGameFilters, dictInsert, h2]

theorem getGameFilters_service (service value : String) :
    getGameFilters service value "service" = [("service", value)] := by
  simp [getGameFilters, dictInsert]

/-- C1: for falsy `service` or `value`, `get_game` raises `ValueError` before
querying; otherwise it queries the `service_games` table with the dict
`\x7b"service": service, field: value\x7d` (two separate equality filters whenever
`field` is not itself `"service"`) and returns `None` on zero matches, the
first (and only) row without a warning on exactly one match, and on two or
more matches the first row of the query result, logging a warning rather than
raising. -/
theorem get_game_spec (db : List Row) (service value fld : String) :
    (get_game db "" value fld = .invalidArgument "No service provided") ∧
    (service ≠ "" → get_game db service "" fld = .invalidArgument "No value provided") ∧
    (service ≠ "" → value ≠ "" →
      (runFullQuery db [] (getGameFilters service value fld) [] = [] →
        get_game db service value fld = .notFound) ∧
      (∀ r, runFullQuery db [] (getGameFilters service value fld) [] = [r] →
        get_game db service value fld = .found r false) ∧
      (∀ r r2 rest, runFullQuery db [] (getGameFilters service value fld) [] =
          r :: r2 :: rest →
        get_game db service value fld = .found r true) ∧
      runFullQuery db [] (getGameFilters service value fld) [] =
        db.filter (fun r => (getGameFilters service value fld).all
          (fun p => rowGet r p.1 == some p.2)) ∧
      (fld ≠ "service" →
        getGameFilters service value fld = [("service", service), (fld, value)])) := by
  refine ⟨by simp [get_game], fun hs => by simp [get_game, hs], fun hs hv => ?_⟩
  refine ⟨?_, ?_, ?_, runFullQuery_filters db _, getGameFilters_ne service value fld⟩
  · intro h; simp [get_game, hs, hv, h]
  · intro r h; simp [get_game, hs, hv, h]
  · intro r r2 rest h; simp [get_game, hs, hv, h]

/-- C1 witness: a two-row table where `("romm", "7")` matches exactly one row,
an empty filter result means not found, and a duplicated `appid` yields the
first row plus a warning. -/
theorem get_game_spec_witness :
    get_game [[("service", "romm"), ("appid", "7")], [("service", "gog"), ("appid", "7")],
        [("service", "gog"), ("appid", "7")]] "romm" "7" "appid" =
      .found [("service", "romm"), ("appid", "7")] false ∧
    get_game [[("service", "romm"), ("appid", "7")], [("service", "gog"), ("appid", "7")],
        [("service", "gog"), ("appid", "7")]] "romm" "8" "appid" = .notFound ∧
    get_game [[("service", "romm"), ("appid", "7")], [("service", "gog"), ("appid", "7")],
        [("service", "gog"), ("appid", "7")]] "gog" "7" "appid" =
      .found [("service", "gog"), ("appid", "7")] true := by
  refine ⟨?_, ?_, ?_⟩
  · exact ((get_game_spec _ "romm" "7" "appid").2.2 (by decide) (by decide)).2.1 _ (by decide)
  · exact ((get_game_spec _ "romm" "8" "appid").2.2 (by decide) (by decide)).1 (by decide)
  · exact ((get_game_spec _ "gog" "7" "appid").2.2 (by decide) (by decide)).2.2.1
      [("service", "gog"), ("appid", "7")] [("service", "gog"), ("appid", "7")] []
      (by decide)

/-- C2: `get_for_service` raises `ValueError` for a falsy service argument and
otherwise returns exactly the rows of the `service_games` table whose
`service` column equals the argument. -/
theorem get_for_service_spec (db : List Row) (service : String) :
    (get_for_service db "" = .error "No service provided") ∧
    (service ≠ "" → get_for_service db service =
      .ok (db.filter (fun r => rowGet r "service" == some service))) := by
  constructor
  · simp [get_for_service]
  · intro hs
    simp [get_for_service, hs, runFullQuery_filters]

/-- C2 witness: `get_for_service "romm"` keeps exactly the `romm` rows of a
mixed table. -/
theorem get_for_service_spec_witness :
    get_for_service [[("service", "romm"), ("appid", "1")], [("service", "gog"),
        ("appid", "2")], [("service", "romm"), ("appid", "3")]] "romm" =
      .ok [[("service", "romm"), ("appid", "1")], [("service", "romm"), ("appid", "3")]] ∧
    get_for_service [[("service", "romm"), ("appid", "1")]] "" =
      .error "No service provided" := by
  constructor
  · rw [(get_for_service_spec [[("service", "romm"), ("appid", "1")], [("service", "gog"),
        ("appid", "2")], [("service", "romm"), ("appid", "3")]] "romm").2 (by decide)]
    rfl
  · exact (get_for_service_spec [[("service", "romm"), ("appid", "1")]] "romm").1

/-- C7: the query text is a function of the criteria field names alone - two
criteria sets with the same field names produce identical SQL text whatever
their values, so a value (with quotes or any other character) never reaches
the text; every value is carried in the bound parameter list; and execution
treats a filter value purely as data, as equality with the stored column. -/
theorem query_parameterization (table : String)
    (searches filters excludes searches2 filters2 excludes2 : List (String × String))
    (sorts : List String)
    (hs : searches.map Prod.fst = searches2.map Prod.fst)
    (hf : filters.map Prod.fst = filters2.map Prod.fst)
    (he : excludes.map Prod.fst = excludes2.map Prod.fst) :
    (buildQuery table searches filters excludes sorts).text =
      (buildQuery table searches2 filters2 excludes2 sorts).text ∧
    (buildQuery table searches filters excludes sorts).params =
      searches.map (fun p => "%" ++ p.2 ++ "%") ++ filters.map Prod.snd ++
        excludes.map Prod.snd ∧
    (∀ db fld v, runFullQuery db [] [(fld, v)] [] =
      db.filter (fun r => rowGet r fld == some v)) := by
  refine ⟨?_, rfl, ?_⟩
  · have h1 : searches.map (fun p => p.1 ++ " LIKE ?") =
        searches2.map (fun p => p.1 ++ " LIKE ?") := by
      have := congrArg (List.map (fun k => k ++ " LIKE ?")) hs
      simpa [List.map_map, Function.comp] using this
    have h2 : filters.map (fun p => p.1 ++ " = ?") =
        filters2.map (fun p => p.1 ++ " = ?") := by
      have := congrArg (List.map (fun k => k ++ " = ?")) hf
      simpa [List.map_map, Function.comp] using this
    have h3 : excludes.map (fun p => p.1 ++ " != ?") =
        excludes2.map (fun p => p.1 ++ " != ?") := by
      have := congrArg (List.map (fun k => k ++ " != ?")) he
      simpa [List.map_map, Function.comp] using this
    simp only [buildQuery, h1, h2, h3]
  · intro db fld v
    rw [runFullQuery_filters]
    simp

/-- C7 witness: a filter value holding a quote and SQL fragments yields the
very same query text as a harmless value, and lands in the parameter list. -/
theorem query_parameterization_witness :
    (buildQuery "service_games" [] [("appid", "x\" OR 1=1 --")] [] []).text =
      (buildQuery "service_games" [] [("appid", "x")] [] []).text ∧
    (buildQuery "service_games" [] [("appid", "x\" OR 1=1 --")] [] []).params =
      ["x\" OR 1=1 --"] := by
  have h := query_parameterization "service_games" [] [("appid", "x\" OR 1=1 --")] []
    [] [("appid", "x")] [] [] rfl rfl rfl
  exact ⟨h.1, h.2.1⟩

/-- C9: in `get_game` with `field = "service"` the dict literal collapses, the
`service` argument is silently discarded, the query filters on
`service == value` alone, and a row whose `service` column differs from the
`service` argument can be returned. -/
theorem get_game_field_service_collapse (db : List Row) (service value : String) :
    getGameFilters service value "service" = [("service", value)] ∧
    (service ≠ "" → value ≠ "" →
      get_game db service value "service" =
        match db.filter (fun r => rowGet r "service" == some value) with
        | [] => .notFound
        | r :: rest => .found r (!rest.isEmpty)) ∧
    (∃ (db0 : List Row) (r : Row), get_game db0 "romm" "steam" "service" = .found r false ∧
      rowGet r "service" = some "steam" ∧ rowGet r "service" ≠ some "romm") := by
  refine ⟨getGameFilters_service service value, ?_, ?_⟩
  · intro hs hv
    simp only [get_game, hs, hv, if_false, getGameFilters_service, runFullQuery_filters]
    simp
  · exact ⟨[[("service", "steam"), ("appid", "1")]], [("service", "steam"), ("appid", "1")],
      by decide, by decide, by decide⟩

/-- C9 witness: with `field = "service"` a lookup for service `"romm"` returns
a `steam` row, because only `service == "steam"` is filtered. -/
theorem get_game_field_service_collapse_witness :
    get_game [[("service", "steam"), ("appid", "1")]] "romm" "steam" "service" =
      .found [("service", "steam"), ("appid", "1")] false := by
  have h := (get_game_field_service_collapse [[("service", "steam"), ("appid", "1")]]
    "romm" "steam").2.1 (by decide) (by decide)
  rw [h]
  rfl

theorem pythonIn_of_mem {n : JsonVal} {seen : List JsonVal} (h : n ∈ seen) :
    pythonIn n seen = true := by
  simp only [pythonIn, List.any_eq_true]
  exact ⟨n, h, jeqVal_refl n⟩

theorem pythonIn_cons (n m : JsonVal) (seen : List JsonVal) :
    pythonIn n (m :: seen) = (jeqVal m n || pythonIn n seen) := by
  simp [pythonIn]

theorem new_from_romm_fields (g : List (String × JsonVal)) (sg : RommServiceGame)
    (h : new_from_romm g = some sg) :
    jget g "id" = some sg.appid ∧ jget g "slug" = some sg.slug ∧
      jget g "name" = some sg.name ∧ sg.details = json_dumps (.obj g) := by
  cases hi : jget g "id" with
  | none => simp [new_from_romm, hi] at h
  | some i =>
    cases hs : jget g "slug" with
    | none => simp [new_from_romm, hi, hs] at h
    | some sl =>
      cases hn : jget g "name" with
      | none => simp [new_from_romm, hi, hs, hn] at h
      | some n =>
        simp only [new_from_romm, hi, hs, hn, Bind.bind, Option.bind,
          Option.some.injEq] at h
        subst h
        exact ⟨rfl, rfl, rfl, rfl⟩

/-- A record whose name was seen before it is reached - either in `seen`
itself or on some earlier record - contributes nothing to the load: the loop
yields exactly the same result with it removed. -/
theorem dedupGames_drop (g : List (String × JsonVal)) (n : JsonVal)
    (hg : jget g "name" = some n) :
    ∀ (pre post : List (List (String × JsonVal))) (seen : List JsonVal),
      (pythonIn n seen = true ∨ ∃ g2 ∈ pre, jget g2 "name" = some n) →
      dedupGames (pre ++ g :: post) seen = dedupGames (pre ++ post) seen := by
  intro pre
  induction pre with
  | nil =>
    intro post seen hn
    rcases hn with hn | ⟨g2, hg2, _⟩
    · simp [dedupGames, hg, hn]
    · exact absurd hg2 (List.not_mem_nil g2)
  | cons p pre ih =>
    intro post seen hn
    simp only [List.cons_append, dedupGames]
    cases hp : jget p "name" with
    | none => rfl
    | some m =>
      by_cases hmem : pythonIn m seen = true
      · simp only [if_pos hmem]
        refine ih post seen ?_
        rcases hn with hn | ⟨g2, hg2, hgn⟩
        · exact Or.inl hn
        · rcases List.mem_cons.mp hg2 with rfl | hg2'
          · rw [hp] at hgn
            obtain rfl := Option.some.inj hgn
            exact Or.inl hmem
          · exact Or.inr ⟨g2, hg2', hgn⟩
      · have hmem2 : pythonIn m seen = false := by simpa using hmem
        simp only [if_neg hmem]
        cases hconv : new_from_romm p with
        | none => rfl
        | some sg =>
          have hrec : dedupGames (pre ++ g :: post) (m :: seen) =
              dedupGames (pre ++ post) (m :: seen) := by
            refine ih post (m :: seen) ?_
            rcases hn with hn | ⟨g2, hg2, hgn⟩
            · rw [pythonIn_cons]
              exact Or.inl (by rw [hn, Bool.or_true])
            · rcases List.mem_cons.mp hg2 with rfl | hg2'
              · rw [hp] at hgn
                obtain rfl := Option.some.inj hgn
                rw [pythonIn_cons, jeqVal_refl]
                exact Or.inl rfl
              · exact Or.inr ⟨g2, hg2', hgn⟩
          simp only [List.append_eq, hrec]

/-- The names of the games a load produces are pairwise distinct, and none of
them was in the seen-set the loop started from. -/
theorem dedupGames_names_nodup :
    ∀ (l : List (List (String × JsonVal))) (seen : List JsonVal)
      (out : List RommServiceGame), dedupGames l seen = .ok out →
      (∀ sg ∈ out, pythonIn sg.name seen = false) ∧
        (out.map RommServiceGame.name).Nodup := by
  intro l
  induction l with
  | nil =>
    intro seen out h
    simp only [dedupGames, Except.ok.injEq] at h
    subst h
    exact ⟨by simp, by simp⟩
  | cons g rest ih =>
    intro seen out h
    simp only [dedupGames] at h
    split at h
    · exact absurd h (by simp)
    · next m hg =>
      by_cases hmem : pythonIn m seen = true
      · rw [if_pos hmem] at h
        exact ih seen out h
      · have hmem2 : pythonIn m seen = false := by simpa using hmem
        rw [if_neg hmem] at h
        split at h
        · exact absurd h (by simp)
        · next sg hconv =>
          cases hd : dedupGames rest (m :: seen) with
          | error e => rw [hd] at h; exact absurd h (by simp [Except.map])
          | ok tl =>
            rw [hd] at h
            have hout : sg :: tl = out := by simpa [Except.map] using h
            subst hout
            obtain ⟨hseen, hnodup⟩ := ih (m :: seen) tl hd
            have hname : sg.name = m := by
              have := (new_from_romm_fields g sg hconv).2.2.1
              rw [hg] at this
              exact (Option.some.inj this).symm
            constructor
            · intro sg2 hsg2
              rcases List.mem_cons.mp hsg2 with rfl | hsg2m
              · rw [hname]; exact hmem2
              · have := hseen sg2 hsg2m
                rw [pythonIn_cons] at this
                exact (Bool.or_eq_false_iff.mp this).2
            · rw [List.map_cons]
              refine List.nodup_cons.mpr ⟨?_, hnodup⟩
              intro hmm
              rcases List.mem_map.mp hmm with ⟨sg2, hsg2, hsgname⟩
              have := hseen sg2 hsg2
              rw [pythonIn_cons, hsgname, hname, jeqVal_refl] at this
              simp at this

theorem mapM_asObj_cons (g : List (String × JsonVal)) (xs : List JsonVal) :
    (JsonVal.obj g :: xs).mapM asObj = (xs.mapM asObj).map (fun os => g :: os) := by
  simp only [List.mapM_cons, asObj]
  cases h : xs.mapM asObj with
  | error e => simp [h, Bind.bind, Except.bind, Except.map]
  | ok os => simp [h, Bind.bind, Except.bind, Except.map, pure, Except.pure]

/-- C3: the load deduplicates records by display name with the first
occurrence winning: a record whose name equals an earlier record's name is
silently dropped (the loop result is exactly the one for the library without
it, so at the `load` level two networks whose answers differ only by the
duplicate record produce the same load); a successful load yields games with
pairwise distinct names; and the game list starts with the first record's
conversion, which carries its `id`, `slug`, `name` and full JSON. -/
theorem load_dedup_by_name (g1 g2 : List (String × JsonVal)) (n : JsonVal)
    (lib : List (List (String × JsonVal)))
    (h1 : jget g1 "name" = some n) (h2 : jget g2 "name" = some n) :
    dedupGames (g1 :: g2 :: lib) [] = dedupGames (g1 :: lib) [] ∧
    (∀ out, dedupGames (g1 :: g2 :: lib) [] = .ok out →
      (∃ sg tl, new_from_romm g1 = some sg ∧ out = sg :: tl ∧ sg.name = n) ∧
      (out.map RommServiceGame.name).Nodup) ∧
    (∀ (net net2 : String → FetchOutcome) (host : String) (lib2 : List JsonVal),
      net (library_url host) = .success (.arr (.obj g1 :: .obj g2 :: lib2)) →
      net2 (library_url host) = .success (.arr (.obj g1 :: lib2)) →
      load net host = load net2 host) := by
  have hdrop : dedupGames (g1 :: g2 :: lib) [] = dedupGames (g1 :: lib) [] := by
    have := dedupGames_drop g2 n h2 [g1] lib [] (Or.inr ⟨g1, by simp, h1⟩)
    simpa using this
  refine ⟨hdrop, ?_, ?_⟩
  · intro out hout
    have hnodup := (dedupGames_names_nodup _ [] out hout).2
    refine ⟨?_, hnodup⟩
    revert hout
    generalize (g2 :: lib : List (List (String × JsonVal))) = rest
    intro hout
    simp only [dedupGames, h1, pythonIn, List.any_nil, Bool.false_eq_true, if_false] at hout
    split at hout
    · exact absurd hout (by simp)
    · next sg hconv =>
      cases hd : dedupGames rest [n] with
      | error e => rw [hd] at hout; exact absurd hout (by simp [Except.map])
      | ok tl =>
        rw [hd] at hout
        have : sg :: tl = out := by simpa [Except.map] using hout
        subst this
        refine ⟨sg, tl, hconv, rfl, ?_⟩
        have := (new_from_romm_fields g1 sg hconv).2.2.1
        rw [h1] at this
        exact (Option.some.inj this).symm
  · intro net net2 host lib2 hnet hnet2
    simp only [load, get_library, make_api_request, hnet, hnet2]
    rw [show jsonFalsy (.arr (JsonVal.obj g1 :: JsonVal.obj g2 :: lib2)) = false from rfl,
      show jsonFalsy (.arr (JsonVal.obj g1 :: lib2)) = false from rfl]
    simp only [Bool.false_eq_true, if_false]
    simp only [asObjList]
    rw [mapM_asObj_cons, mapM_asObj_cons, mapM_asObj_cons]
    cases hm : lib2.mapM asObj with
    | error e => simp [Except.map]
    | ok os =>
      have := dedupGames_drop g2 n h2 [g1] os [] (Or.inr ⟨g1, by simp, h1⟩)
      simp only [List.cons_append, List.nil_append] at this
      simp [Except.map, this]

/-- C3 witness: the spec example - two records sharing the name `"Foo"` with
ids 1 and 2 - loads as exactly one game, the first record's conversion. -/
theorem load_dedup_by_name_witness :
    dedupGames [[("id", JsonVal.num 1), ("slug", JsonVal.str "foo"),
        ("name", JsonVal.str "Foo")],
      [("id", JsonVal.num 2), ("slug", JsonVal.str "foo2"),
        ("name", JsonVal.str "Foo")]] [] =
      .ok [⟨JsonVal.num 1, JsonVal.str "foo", JsonVal.str "Foo",
        json_dumps (.obj [("id", JsonVal.num 1), ("slug", JsonVal.str "foo"),
          ("name", JsonVal.str "Foo")])⟩] := by
  have h := (load_dedup_by_name
    [("id", JsonVal.num 1), ("slug", JsonVal.str "foo"), ("name", JsonVal.str "Foo")]
    [("id", JsonVal.num 2), ("slug", JsonVal.str "foo2"), ("name", JsonVal.str "Foo")]
    (JsonVal.str "Foo") [] rfl rfl).1
  rw [h]
  rfl

/-- C10: `new_from_romm` copies `id`, `slug` and `name` into the service game
and serializes the whole record into `details`, from which `json.loads`
recovers the record losslessly. -/
theorem new_from_romm_roundtrip (r : List (String × JsonVal)) (i sl n : JsonVal)
    (hid : jget r "id" = some i) (hslug : jget r "slug" = some sl)
    (hname : jget r "name" = some n) :
    ∃ g, new_from_romm r = some g ∧ g.appid = i ∧ g.slug = sl ∧ g.name = n ∧
      json_loads g.details = some (.obj r) := by
  refine ⟨⟨i, sl, n, json_dumps (.obj r)⟩, ?_, rfl, rfl, rfl, json_loads_json_dumps _⟩
  simp [new_from_romm, hid, hslug, hname]

/-- C10 witness: the round trip at the spec's example record. -/
theorem new_from_romm_roundtrip_witness :
    ∃ g, new_from_romm [("id", JsonVal.num 1), ("slug", JsonVal.str "foo"),
        ("name", JsonVal.str "Foo")] = some g ∧ g.appid = JsonVal.num 1 ∧
      g.slug = JsonVal.str "foo" ∧ g.name = JsonVal.str "Foo" ∧
      json_loads g.details = some (.obj [("id", JsonVal.num 1),
        ("slug", JsonVal.str "foo"), ("name", JsonVal.str "Foo")]) :=
  new_from_romm_roundtrip _ _ _ _ rfl rfl rfl

/-- C4 as stated is false on the code: a network (HTTP) error during the
library fetch is caught inside `make_api_request` and turned into the `None`
sentinel, so `load` returns an empty game list instead of raising the wrapped
`RuntimeError`. -/
theorem load_network_error_counterexample :
    load (fun _ => .httpError) "https://demo.romm.app" = .ok [] ∧
    load (fun _ => .httpError) "https://demo.romm.app" ≠
      .runtimeError "Failed to get Romm library. Try logging out and back-in." := by
  refine ⟨rfl, ?_⟩
  intro h
  rw [show load (fun _ => .httpError) "https://demo.romm.app" = .ok [] from rfl] at h
  exact LoadResult.noConfusion h

/-- C4 amended: only a `ValueError` at the library fetch - a failure decoding
the response - is wrapped into the `RuntimeError` whose message asks to log
out and back in, and then no games are produced or persisted; a network
(HTTP) error instead yields a successful load of zero games. -/
theorem load_fetch_error_handling (net : String → FetchOutcome) (host : String) :
    (net (library_url host) = .decodeError →
      load net host =
        .runtimeError "Failed to get Romm library. Try logging out and back-in.") ∧
    (net (library_url host) = .httpError → load net host = .ok []) := by
  constructor
  · intro h
    simp [load, get_library, make_api_request, h]
  · intro h
    simp only [load, get_library, make_api_request, h]
    rfl

/-- C4 witness: both branches of the amended claim at concrete networks. -/
theorem load_fetch_error_handling_witness :
    load (fun _ => .decodeError) "https://h" =
      .runtimeError "Failed to get Romm library. Try logging out and back-in." ∧
    load (fun _ => .httpError) "https://h" = .ok [] :=
  ⟨(load_fetch_error_handling (fun _ => .decodeError) "https://h").1 rfl,
    (load_fetch_error_handling (fun _ => .httpError) "https://h").2 rfl⟩

/-- C5: `make_api_request` catches the low-level HTTP error and returns the
no-data sentinel `None` instead of propagating it; consequently `get_library`
returns the empty library both when the request fails and when the response
decodes to a falsy value. -/
theorem make_api_request_no_raise (net : String → FetchOutcome) (url host : String)
    (v : JsonVal) :
    (net url = .httpError → make_api_request net url = .ok none) ∧
    (net (library_url host) = .httpError → get_library net host = .ok (.arr [])) ∧
    (net (library_url host) = .success v → jsonFalsy v = true →
      get_library net host = .ok (.arr [])) := by
  refine ⟨fun h => ?_, fun h => ?_, fun h hf => ?_⟩
  · simp [make_api_request, h]
  · simp [get_library, make_api_request, h]
  · simp [get_library, make_api_request, h, hf]

/-- C5 witness: a failing network and a falsy (null) response both yield the
sentinel and the empty library. -/
theorem make_api_request_no_raise_witness :
    make_api_request (fun _ => .httpError) "https://h/api/x" = .ok none ∧
    get_library (fun _ => .httpError) "https://h" = .ok (.arr []) ∧
    get_library (fun _ => .success .null) "https://h" = .ok (.arr []) :=
  ⟨(make_api_request_no_raise (fun _ => .httpError) "https://h/api/x" "https://h" .null).1
      rfl,
    (make_api_request_no_raise (fun _ => .httpError) "https://h/api/x" "https://h" .null).2.1
      rfl,
    (make_api_request_no_raise (fun _ => .success .null) "https://h/api/x" "https://h"
      .null).2.2 rfl rfl⟩

/-- C6: `configure` strips one trailing slash from the host the user entered
before storing it, stores a host without a trailing slash unchanged, and
writes the config file as the JSON object `\x7b"host": <url>\x7d`. -/
theorem configure_strips_trailing_slash (s : String) (h : pyEndsWithSlash s = false) :
    configure (s ++ "/") = ⟨s, s ++ "/scan", json_dumps (.obj [("host", .str s)])⟩ ∧
    configure s = ⟨s, s ++ "/scan", json_dumps (.obj [("host", .str s)])⟩ := by
  constructor
  · have hslash : pyEndsWithSlash (s ++ "/") = true := by
      simp [pyEndsWithSlash, String.data_append, List.getLast?_concat]
    have hdrop : pyDropLast (s ++ "/") = s := by
      simp only [pyDropLast, String.data_append]
      rw [List.dropLast_concat]
    simp [configure, hslash, hdrop]
  · simp [configure, h]

/-- C6 witness: `"https://host/"` is stored as `"https://host"` and the config
file text is exactly the JSON object with that host. -/
theorem configure_strips_trailing_slash_witness :
    configure "https://host/" = ⟨"https://host", "https://host" ++ "/scan",
      json_dumps (.obj [("host", .str "https://host")])⟩ ∧
    (configure "https://host/").config_file = "\x7b\"host\": \"https://host\"\x7d" := by
  have h := (configure_strips_trailing_slash "https://host" rfl).1
  rw [show ("https://host" ++ "/" : String) = "https://host/" from rfl] at h
  exact ⟨h, rfl⟩

/-- C8: the library fetch requests exactly the URL
`host ++ "/api/roms?order_by=name&order_dir=asc&limit=250"` - one authenticated
GET of a single fixed page of 250, no further pages: the outcome of
`get_library` depends on the network's answer at that one URL alone - and a
non-empty JSON array response is returned as the library. -/
theorem get_library_single_request (host : String) :
    library_url host = host ++ "/api/roms?order_by=name&order_dir=asc&limit=250" ∧
    (∀ net net2 : String → FetchOutcome,
      net (library_url host) = net2 (library_url host) →
      get_library net host = get_library net2 host) ∧
    (∀ (net : String → FetchOutcome) (objs : List JsonVal),
      net (library_url host) = .success (.arr objs) → objs ≠ [] →
      get_library net host = .ok (.arr objs)) := by
  refine ⟨?_, ?_, ?_⟩
  · show (host ++ "/api") ++ "/roms?order_by=name&order_dir=asc&limit=250" = _
    rw [String.append_assoc]
    rfl
  · intro net net2 h
    simp [get_library, make_api_request, h]
  · intro net objs h hne
    cases objs with
    | nil => exact absurd rfl hne
    | cons a as => simp [get_library, make_api_request, h, jsonFalsy]

/-- C8 witness: the URL at a concrete host, and a concrete non-empty array
response returned as the library. -/
theorem get_library_single_request_witness :
    library_url "https://demo.romm.app" =
      "https://demo.romm.app" ++ "/api/roms?order_by=name&order_dir=asc&limit=250" ∧
    get_library (fun _ => .success (.arr [.obj [("id", .num 1)]])) "https://demo.romm.app" =
      .ok (.arr [.obj [("id", .num 1)]]) :=
  ⟨(get_library_single_request "https://demo.romm.app").1,
    (get_library_single_request "https://demo.romm.app").2.2
      (fun _ => .success (.arr [.obj [("id", .num 1)]])) [.obj [("id", .num 1)]] rfl
      (by simp)⟩

end LutrisSpec
